import Mathlib

/-!
# A verification model of `pypicache`'s disk package store

This file is a shallow embedding of `src/pypicache/disk.py`
(class `DiskPackageStore`) into Lean 4, together with theorems about the
claims of the specification.

Modelling conventions:

* File contents (Python byte strings) are `List Nat`.
* The filesystem below `<root>/packages/` is modelled as a finite tree
  (`FSTree`).  A `Store` is the list of entries of the `packages`
  directory: each entry is a shard directory (normally a single letter)
  or, in adversarial states, an arbitrary tree node.  The store root
  path (`self.prefix` in the source) is threaded as a plain string
  `rootdir` and is only used to build the path strings that appear in
  error messages.
* Python exceptions are the constructors of `Err`; a raised exception is
  an `Except.error`.  The generators `list_files` / the recursive
  `get_file` can fail to terminate on adversarial stores, so both take a
  fuel argument; `none` means the computation did not finish within the
  given fuel (in Python: unbounded recursion).
* `str.lower` is modelled by `pyLower` (character-wise ASCII lowering),
  and Python string comparison (used by `sorted`) by the code-point
  lexicographic order `pyStrLt`.
* The MD5 hex digest stored in listing records is modelled by the
  injective digest `md5model` (the raw content itself); no claim depends
  on the concrete digest value, only on the digest being a function of
  the content.
-/

/-- Python exceptions raised by the disk store. -/
inductive Err where
  /-- `IndexError`: `package[0]` on an empty package name. -/
  | indexError : Err
  /-- `pypicache.exceptions.NotFound` with its message. -/
  | notFound (msg : String) : Err
  /-- `pypicache.exceptions.NotOverwritingError` with its message. -/
  | notOverwriting (msg : String) : Err
  /-- Any other `OSError` (`makedirs` on a non-directory component,
  `open` on a directory, ...). -/
  | osError : Err
deriving DecidableEq, Repr

/-- A node of the filesystem tree: a regular file with its bytes, or a
directory with its (ordered) entries.  The list order models the
directory enumeration order used by `os.walk` and `glob`. -/
inductive FSTree where
  | file (content : List Nat) : FSTree
  | dir (entries : List (String × FSTree)) : FSTree

/-- The contents of the `<root>/packages/` directory. -/
structure Store where
  shards : List (String × FSTree)

/-- First entry with the given name (directory entries are unique on a
real filesystem; the model resolves duplicates to the first one
everywhere, consistently). -/
def lookupEntry (n : String) : List (String × FSTree) → Option FSTree
  | [] => none
  | (m, t) :: es => if m = n then some t else lookupEntry n es

/-- Replace the first entry with the given name, or append a new one. -/
def setEntry (n : String) (t : FSTree) : List (String × FSTree) → List (String × FSTree)
  | [] => [(n, t)]
  | (m, u) :: es => if m = n then (n, t) :: es else (m, u) :: setEntry n t es

/-- Resolve a path to the bytes of a regular file (`open(path, "rb")`
succeeds exactly when this is `some`). -/
def readTree : FSTree → List String → Option (List Nat)
  | .file c, [] => some c
  | .file _, _ :: _ => none
  | .dir _, [] => none
  | .dir es, n :: rest =>
    match lookupEntry n es with
    | some t => readTree t rest
    | none => none

/-- Resolve a path to the entries of a directory (`os.path.isdir`
is `(subdirAt ..).isSome`). -/
def subdirAt : FSTree → List String → Option (List (String × FSTree))
  | .file _, _ => none
  | .dir es, [] => some es
  | .dir es, n :: rest =>
    match lookupEntry n es with
    | some t => subdirAt t rest
    | none => none

/-- Read the regular file at `packages/<path>` of the store. -/
def readAt (s : Store) (path : List String) : Option (List Nat) :=
  readTree (.dir s.shards) path

/-- The directory at `packages/<path>` of the store. -/
def dirAt (s : Store) (path : List String) : Option (List (String × FSTree)) :=
  subdirAt (.dir s.shards) path

/-- `package[0]` as a one-character string; `none` models the
`IndexError` raised on an empty package name. -/
def firstletter (p : String) : Option String :=
  match p.data with
  | [] => none
  | c :: _ => some (String.mk [c])

/-- Python `str.lower()` (ASCII case folding, character-wise). -/
def pyLower (s : String) : String :=
  String.mk (s.data.map Char.toLower)

/-- Whether a path string is absolute (Python `b.startswith("/")`). -/
def startsWithSlash (b : String) : Bool :=
  match b.data with
  | c :: _ => c = '/'
  | [] => false

/-- Whether a path string ends with the separator. -/
def endsWithSlash (a : String) : Bool :=
  match a.data.getLast? with
  | some c => c = '/'
  | none => false

/-- `os.path.join` for one relative component (POSIX rules). -/
def osJoin (a b : String) : String :=
  if startsWithSlash b then b
  else if a = "" || endsWithSlash a then a ++ b
  else a ++ "/" ++ b

/-- The path string `<root>/packages/<fl>/<package>/<filename>`. -/
def packagePath (rootdir fl package filename : String) : String :=
  osJoin rootdir ("packages/" ++ fl ++ "/" ++ package ++ "/" ++ filename)

/-- `DiskPackageStore.get_file_path`; `none` models the `IndexError`
on an empty package name. -/
def get_file_path (rootdir package filename : String) : Option String :=
  (firstletter package).map fun fl => packagePath rootdir fl package filename

/-- Python string comparison (`<`) on code points, as used by `sorted`. -/
def pyStrLt : List Char → List Char → Bool
  | [], [] => false
  | [], _ :: _ => true
  | _ :: _, [] => false
  | x :: xs, y :: ys => if x < y then true else if y < x then false else pyStrLt xs ys

theorem pyStrLt_asymm : ∀ a b : List Char, pyStrLt a b = true → pyStrLt b a = false
  | [], [] => by simp [pyStrLt]
  | [], _ :: _ => by simp [pyStrLt]
  | _ :: _, [] => by simp [pyStrLt]
  | x :: xs, y :: ys => by
    simp only [pyStrLt]
    rcases lt_trichotomy x y with h | h | h
    · simp [h, asymm h, lt_asymm h]
    · subst h
      simp only [lt_irrefl, if_false]
      exact pyStrLt_asymm xs ys
    · simp [h, asymm h, lt_asymm h]

theorem pyStrLt_conn : ∀ a b : List Char, pyStrLt a b = false → pyStrLt b a = false → a = b
  | [], [] => by simp
  | [], _ :: _ => by simp [pyStrLt]
  | _ :: _, [] => by simp [pyStrLt]
  | x :: xs, y :: ys => by
    simp only [pyStrLt]
    rcases lt_trichotomy x y with h | h | h
    · simp [h]
    · subst h
      simp only [lt_irrefl, if_false]
      intro h1 h2
      rw [pyStrLt_conn xs ys h1 h2]
    · simp [h, asymm h, lt_asymm h]

theorem pyStrLt_trans :
    ∀ a b c : List Char, pyStrLt a b = true → pyStrLt b c = true → pyStrLt a c = true
  | [], [], c => by simp [pyStrLt]
  | [], _ :: _, [] => by simp [pyStrLt]
  | [], _ :: _, _ :: _ => by simp [pyStrLt]
  | _ :: _, [], _ => by simp [pyStrLt]
  | _ :: _, _ :: _, [] => by simp [pyStrLt]
  | x :: xs, y :: ys, z :: zs => by
    intro h1 h2
    rcases lt_trichotomy x y with hxy | hxy | hxy
    · rcases lt_trichotomy y z with hyz | hyz | hyz
      · simp [pyStrLt, lt_trans hxy hyz]
      · subst hyz; simp [pyStrLt, hxy]
      · rw [pyStrLt, if_neg (asymm hyz), if_pos hyz] at h2; cases h2
    · subst hxy
      rw [pyStrLt, if_neg (lt_irrefl x), if_neg (lt_irrefl x)] at h1
      rcases lt_trichotomy x z with hxz | hxz | hxz
      · simp [pyStrLt, hxz]
      · subst hxz
        rw [pyStrLt, if_neg (lt_irrefl x), if_neg (lt_irrefl x)] at h2
        rw [pyStrLt, if_neg (lt_irrefl x), if_neg (lt_irrefl x)]
        exact pyStrLt_trans xs ys zs h1 h2
      · rw [pyStrLt, if_neg (asymm hxz), if_pos hxz] at h2; cases h2
    · rw [pyStrLt, if_neg (asymm hxy), if_pos hxy] at h1; cases h1

theorem pyStrLt_trichotomy (a b : List Char) :
    pyStrLt a b = true ∨ pyStrLt b a = true ∨ a = b := by
  rcases hab : pyStrLt a b with _ | _
  · rcases hba : pyStrLt b a with _ | _
    · exact Or.inr (Or.inr (pyStrLt_conn a b hab hba))
    · exact Or.inr (Or.inl rfl)
  · exact Or.inl rfl

/-- The order used by `sorted(glob(...))` on the triples
`(full path, is-directory, basename)` produced by the glob model:
comparison of the path strings. -/
def globLe (x y : String × Bool × String) : Prop :=
  pyStrLt y.1.data x.1.data = false

instance : DecidableRel globLe := fun _ _ => inferInstanceAs (Decidable (_ = false))

instance : IsTotal (String × Bool × String) globLe := by
  constructor
  intro a b
  rcases h : pyStrLt b.1.data a.1.data with _ | _
  · exact Or.inl h
  · exact Or.inr (pyStrLt_asymm _ _ h)

instance : IsTrans (String × Bool × String) globLe := by
  constructor
  intro a b c hab hbc
  unfold globLe at *
  rcases h : pyStrLt c.1.data a.1.data with _ | _
  · rfl
  · exfalso
    rcases pyStrLt_trichotomy a.1.data b.1.data with hl | hl | hl
    · have := pyStrLt_trans _ _ _ h hl
      rw [this] at hbc
      cases hbc
    · rw [hl] at hab
      cases hab
    · rw [hl] at h
      rw [h] at hbc
      cases hbc

/-- Is the tree node a directory? -/
def isDirT : FSTree → Bool
  | .file _ => false
  | .dir _ => true

/-- Whether a name starts with a dot (`glob` patterns `?` and `*` do not
match hidden entries). -/
def startsWithDot (s : String) : Bool :=
  match s.data with
  | c :: _ => c = '.'
  | [] => false

/-- The matches that one shard-level entry contributes to
`glob("packages/?/*")`: nothing unless the entry is a directory whose
name is a single non-dot character; otherwise one triple
`(path relative to packages/, is-directory, basename)` per non-hidden
child. -/
def shardGlob (e : String × FSTree) : List (String × Bool × String) :=
  if e.1.length = 1 ∧ startsWithDot e.1 = false then
    match e.2 with
    | .dir es =>
      es.filterMap fun e2 =>
        if startsWithDot e2.1 = false then
          some (e.1 ++ "/" ++ e2.1, isDirT e2.2, e2.1)
        else none
    | .file _ => []
  else []

/-- The matches of `glob(os.path.join(prefix, "packages/?/*"))`.
`?` matches exactly one character and, like `*`, does not match a
leading dot.  `sorted` on the full path strings orders them exactly
like `pyStrLt` on these relative paths, because all full paths share
the `<root>/packages/` prefix. -/
def globEntries (s : Store) : List (String × Bool × String) :=
  s.shards.flatMap shardGlob

/-- `DiskPackageStore.list_packages`: glob `packages/?/*`, sort, keep
directories, yield basenames. -/
def list_packages (s : Store) : List String :=
  ((List.insertionSort globLe (globEntries s)).filter fun x => x.2.1).map fun x => x.2.2

/-- The regular-file children of a directory, in entry order
(the `files` component of an `os.walk` triple). -/
def filesOfEntries (es : List (String × FSTree)) : List (String × List Nat) :=
  es.filterMap fun e =>
    match e.2 with
    | .file c => some (e.1, c)
    | .dir _ => none

mutual
/-- `os.walk(path, topdown=False)` flattened to the `(filename, bytes)`
pairs yielded by `list_files`'s inner loop: all subtrees first (in entry
order), then this directory's own regular files.  Walking a path that is
a regular file (or, at the call site, does not exist) yields nothing. -/
def walkBottomUp : FSTree → List (String × List Nat)
  | .file _ => []
  | .dir es => walkEntries es ++ filesOfEntries es

def walkEntries : List (String × FSTree) → List (String × List Nat)
  | [] => []
  | e :: es => walkBottomUp e.2 ++ walkEntries es
end

/-- One record yielded by `DiskPackageStore.list_files`. -/
structure FileRecord where
  package : String
  firstletter : String
  filename : String
  md5 : List Nat
deriving DecidableEq, Repr

/-- Digest model for `hashlib.md5(open(abspath).read()).hexdigest()`:
the digest is a function of the file content only; we use the content
itself as its digest.  No claim depends on the digest value. -/
def md5model (c : List Nat) : List Nat := c

/-- The records yielded by walking one package directory. -/
def packageRecords (package fl : String) (t : FSTree) : List FileRecord :=
  (walkBottomUp t).map fun nc => ⟨package, fl, nc.1, md5model nc.2⟩

/-- `DiskPackageStore.list_files`, with fuel for the fishing recursion
(`none` = the recursion does not terminate within the fuel).  The
generator is modelled eagerly: every control decision of the generator
(the `isdir` check and the fishing loop) happens before its first
`yield`, so an eager list is observationally the same. -/
def list_files : Nat → Store → String → Option (Except Err (List FileRecord))
  | 0, _, _ => none
  | fuel + 1, s, package =>
    match firstletter package with
    | none => some (.error .indexError)
    | some fl =>
      match dirAt s [fl, package] with
      | some es => some (.ok (packageRecords package fl (.dir es)))
      | none =>
        -- "Try fishing for correct name"
        match (list_packages s).find? (fun mp => pyLower mp == pyLower package) with
        | some mp => list_files fuel s mp
        | none =>
          -- no match: fall through to `os.walk` of the missing directory,
          -- which yields nothing
          some (.ok [])

/-- The records `list_files` yields for a package whose directory
exists (the non-fishing case). -/
def listedRecords (s : Store) (package : String) : List FileRecord :=
  match firstletter package with
  | some fl =>
    match dirAt s [fl, package] with
    | some es => packageRecords package fl (.dir es)
    | none => []
  | none => []

/-- The `NotFound` message of `get_file`. -/
def notFoundMsg (package filename path : String) : String :=
  "Package " ++ package ++ ": " ++ filename ++ " not found in " ++ path

/-- The fishing loop of `get_file`: scan the packages in order; for each
case-insensitive package match, scan its records for the first
case-insensitive filename match.  `some (.ok (some (mp, fn)))` is the
canonical pair on which the source immediately returns
`self.get_file(mp, fn)`; `some (.ok none)` means the scan finished with
no match (the source then raises `NotFound`).  Errors (and missing fuel)
of the inner `list_files` propagate. -/
def findMatch (lf : String → Option (Except Err (List FileRecord)))
    (package filename : String) :
    List String → Option (Except Err (Option (String × String)))
  | [] => some (.ok none)
  | mp :: rest =>
    if pyLower package == pyLower mp then
      match lf mp with
      | none => none
      | some (.error e) => some (.error e)
      | some (.ok recs) =>
        match recs.find? (fun r => pyLower r.filename == pyLower filename) with
        | some r => some (.ok (some (mp, r.filename)))
        | none => findMatch lf package filename rest
    else findMatch lf package filename rest

/-- `DiskPackageStore.get_file`, with fuel for its self-recursion
(`none` = the recursion does not terminate within the fuel).  The
returned bytes are the content of the opened handle. -/
def get_file (rootdir : String) : Nat → Store → String → String → Option (Except Err (List Nat))
  | 0, _, _, _ => none
  | fuel + 1, s, package, filename =>
    match firstletter package with
    | none => some (.error .indexError)
    | some fl =>
      match readAt s [fl, package, filename] with
      | some c => some (.ok c)
      | none =>
        -- "Try fishing for the file with different cases"
        match findMatch (list_files fuel s) package filename (list_packages s) with
        | none => none
        | some (.error e) => some (.error e)
        | some (.ok (some mpfn)) => get_file rootdir fuel s mpfn.1 mpfn.2
        | some (.ok none) =>
          some (.error (.notFound
            (notFoundMsg package filename (packagePath rootdir fl package filename))))

/-- The `content` argument of `add_file`: either a byte string or a
readable stream (an object with a `read` method) over the given bytes. -/
inductive Content where
  | bytes (b : List Nat) : Content
  | stream (b : List Nat) : Content

/-- The bytes actually written: a stream is drained by
`content.read()`, a byte string is written as-is. -/
def Content.readAll : Content → List Nat
  | .bytes b => b
  | .stream b => b

/-- `os.makedirs` of a directory chain below `packages/`: create the
missing directories of the chain; fail (`none`) if a component already
exists as a regular file.  Modelled atomically: on failure nothing is
created (the only effect a partial `makedirs` could have — leaving some
empty parent directories behind — is invisible to every file read). -/
def mkdirTree : List (String × FSTree) → List String → Option (List (String × FSTree))
  | es, [] => some es
  | es, d :: rest =>
    match lookupEntry d es with
    | some (.dir sub) =>
      match mkdirTree sub rest with
      | some sub2 => some (setEntry d (.dir sub2) es)
      | none => none
    | some (.file _) => none
    | none =>
      match mkdirTree [] rest with
      | some sub2 => some (setEntry d (.dir sub2) es)
      | none => none

/-- `open(path, "wb")` followed by a full write: navigate the (existing)
directory chain and create the file.  `none` models the `OSError` when
the final component exists as a directory, or when the chain is broken
(unreachable after a successful `makedirs`). -/
def writeInDir : List (String × FSTree) → List String → String → List Nat →
    Option (List (String × FSTree))
  | es, [], f, c =>
    match lookupEntry f es with
    | some (.dir _) => none
    | _ => some (setEntry f (.file c) es)
  | es, d :: rest, f, c =>
    match lookupEntry d es with
    | some (.dir sub) =>
      match writeInDir sub rest f c with
      | some sub2 => some (setEntry d (.dir sub2) es)
      | none => none
    | _ => none

/-- `DiskPackageStore.add_file`.  Returns the raised exception (if any)
together with the store as left behind by the call. -/
def add_file (rootdir : String) (s : Store) (package filename : String) (content : Content) :
    Option Err × Store :=
  match firstletter package with
  | none => (some .indexError, s)
  | some fl =>
    if (readAt s [fl, package, filename]).isSome then
      -- os.path.isfile(path)
      (some (.notOverwriting ("Not overwriting " ++ packagePath rootdir fl package filename)), s)
    else
      match
        if (dirAt s [fl, package]).isSome then some s.shards
        else mkdirTree s.shards [fl, package]
      with
      | none => (some .osError, s)
      | some es1 =>
        match writeInDir es1 [fl, package] filename content.readAll with
        | some es2 => (none, ⟨es2⟩)
        | none => (some .osError, ⟨es1⟩)

/-- Termination of a `get_file` call, in terms of the fuel model: some
fuel suffices for the source's recursion to produce a result. -/
def GetFileTerminates (rootdir : String) (s : Store) (package filename : String) : Prop :=
  ∃ fuel, get_file rootdir fuel s package filename ≠ none

/-- Well-formedness of the entries of one shard directory with letter
`L`: distinct entry names, every entry's name begins with the letter `L`
(the data-model invariant: the sharding letter matches the first
character of the package name), and no hidden names. -/
def WFEntries (L : String) (es : List (String × FSTree)) : Prop :=
  (es.map Prod.fst).Nodup ∧ ∀ e ∈ es, firstletter e.1 = some L ∧ startsWithDot e.1 = false

instance (L : String) (es : List (String × FSTree)) : Decidable (WFEntries L es) :=
  inferInstanceAs (Decidable (_ ∧ _))

def WFNode (L : String) : FSTree → Prop
  | .file _ => True
  | .dir es => WFEntries L es

instance : ∀ (L : String) (t : FSTree), Decidable (WFNode L t)
  | _, .file _ => .isTrue trivial
  | L, .dir es => inferInstanceAs (Decidable (WFEntries L es))

/-- Well-formed store: distinct shard names, each shard name a single
non-hidden character, and each shard's package directories named with
that first letter.  This is the data-model invariant the specification
states for the on-disk layout. -/
def WFStore (s : Store) : Prop :=
  (s.shards.map Prod.fst).Nodup ∧
  ∀ e ∈ s.shards, e.1.length = 1 ∧ startsWithDot e.1 = false ∧ WFNode e.1 e.2

instance (s : Store) : Decidable (WFStore s) :=
  inferInstanceAs (Decidable (_ ∧ _))

/-- A package-directory tree with no nested subdirectories: every entry
is a regular file.  (Stores reachable through `add_file` alone are of
this shape.) -/
def FlatNode : FSTree → Prop
  | .file _ => True
  | .dir es => ∀ e ∈ es, isDirT e.2 = false

instance : ∀ t : FSTree, Decidable (FlatNode t)
  | .file _ => .isTrue trivial
  | .dir es => inferInstanceAs (Decidable (∀ e ∈ es, isDirT e.2 = false))

def FlatTop : FSTree → Prop
  | .file _ => True
  | .dir es => ∀ e ∈ es, FlatNode e.2

instance : ∀ t : FSTree, Decidable (FlatTop t)
  | .file _ => .isTrue trivial
  | .dir es => inferInstanceAs (Decidable (∀ e ∈ es, FlatNode e.2))

/-- Flat store: every package-level entry of every shard is either a
regular file or a directory containing only regular files. -/
def FlatStore (s : Store) : Prop :=
  ∀ e ∈ s.shards, FlatTop e.2

instance (s : Store) : Decidable (FlatStore s) :=
  inferInstanceAs (Decidable (∀ e ∈ s.shards, FlatTop e.2))

/-! ### Entry lookup and update -/

theorem lookupEntry_setEntry_self (n : String) (t : FSTree) :
    ∀ es, lookupEntry n (setEntry n t es) = some t
  | [] => by simp [setEntry, lookupEntry]
  | (m, u) :: es => by
    simp only [setEntry]
    by_cases h : m = n
    · rw [if_pos h]
      simp [lookupEntry]
    · rw [if_neg h]
      simp only [lookupEntry]
      rw [if_neg h]
      exact lookupEntry_setEntry_self n t es

theorem lookupEntry_setEntry_ne (n : String) (t : FSTree) {m : String} (hmn : m ≠ n) :
    ∀ es, lookupEntry m (setEntry n t es) = lookupEntry m es
  | [] => by
    simp only [setEntry, lookupEntry]
    rw [if_neg fun h => hmn h.symm]
  | (m', u) :: es => by
    simp only [setEntry]
    by_cases h : m' = n
    · rw [if_pos h]
      simp only [lookupEntry]
      rw [if_neg fun hh => hmn hh.symm, if_neg fun hh : m' = m => hmn (hh ▸ h)]
    · rw [if_neg h]
      simp only [lookupEntry]
      by_cases h2 : m' = m
      · rw [if_pos h2, if_pos h2]
      · rw [if_neg h2, if_neg h2]
        exact lookupEntry_setEntry_ne n t hmn es

theorem lookupEntry_mem {n : String} {t : FSTree} :
    ∀ {es : List (String × FSTree)}, lookupEntry n es = some t → (n, t) ∈ es
  | [], h => by simp [lookupEntry] at h
  | (m, u) :: es, h => by
    by_cases hm : m = n
    · subst hm
      rw [lookupEntry, if_pos rfl] at h
      cases h
      exact List.mem_cons_self _ _
    · rw [lookupEntry, if_neg hm] at h
      exact List.mem_cons_of_mem _ (lookupEntry_mem h)

theorem lookupEntry_of_mem_nodup {n : String} {t : FSTree} :
    ∀ {es : List (String × FSTree)}, (es.map Prod.fst).Nodup → (n, t) ∈ es →
      lookupEntry n es = some t
  | [], _, hm => by cases hm
  | (m, u) :: es, hnd, hm => by
    rw [List.map_cons, List.nodup_cons] at hnd
    rcases List.mem_cons.mp hm with h | h
    · cases h
      rw [lookupEntry, if_pos rfl]
    · have hne : m ≠ n := by
        intro he
        apply hnd.1
        rw [he]
        exact List.mem_map.mpr ⟨(n, t), h, rfl⟩
      rw [lookupEntry, if_neg hne]
      exact lookupEntry_of_mem_nodup hnd.2 h

/-! ### `makedirs` and the write step -/

theorem mkdirTree_fresh_read :
    ∀ (chain : List String) {es' : List (String × FSTree)},
      mkdirTree [] chain = some es' → ∀ q, readTree (.dir es') q = none
  | [], es', h, q => by
    cases h
    cases q <;> simp [readTree, lookupEntry]
  | d :: rest, es', h, q => by
    rw [mkdirTree] at h
    simp only [lookupEntry] at h
    split at h
    · next sub2 hrec =>
      cases h
      cases q with
      | nil => simp [readTree]
      | cons m q' =>
        simp only [readTree, setEntry, lookupEntry]
        by_cases hm : d = m
        · rw [if_pos hm]
          exact mkdirTree_fresh_read rest hrec q'
        · rw [if_neg hm]
    · cases h

theorem mkdirTree_read_eq :
    ∀ (chain : List String) {es es' : List (String × FSTree)},
      mkdirTree es chain = some es' → ∀ q, readTree (.dir es') q = readTree (.dir es) q
  | [], es, es', h, q => by cases h; rfl
  | d :: rest, es, es', h, q => by
    rw [mkdirTree] at h
    split at h
    · next sub hl =>
      split at h
      · next sub2 hrec =>
        cases h
        cases q with
        | nil => rfl
        | cons m q' =>
          simp only [readTree]
          by_cases hm : m = d
          · subst hm
            rw [lookupEntry_setEntry_self, hl]
            exact mkdirTree_read_eq rest hrec q'
          · rw [lookupEntry_setEntry_ne _ _ hm]
      · cases h
    · cases h
    · next hl =>
      split at h
      · next sub2 hrec =>
        cases h
        cases q with
        | nil => rfl
        | cons m q' =>
          simp only [readTree]
          by_cases hm : m = d
          · subst hm
            rw [lookupEntry_setEntry_self, hl]
            exact mkdirTree_fresh_read rest hrec q'
          · rw [lookupEntry_setEntry_ne _ _ hm]
      · cases h

theorem writeInDir_read_self :
    ∀ (chain : List String) {es es2 : List (String × FSTree)} {f : String} {c : List Nat},
      writeInDir es chain f c = some es2 → readTree (.dir es2) (chain ++ [f]) = some c
  | [], es, es2, f, c, h => by
    rw [writeInDir] at h
    split at h
    · cases h
    · cases h
      simp only [List.nil_append, readTree]
      rw [lookupEntry_setEntry_self]
      rfl
  | d :: rest, es, es2, f, c, h => by
    rw [writeInDir] at h
    split at h
    · next sub hl =>
      split at h
      · next sub2 hrec =>
        cases h
        simp only [List.cons_append, readTree]
        rw [lookupEntry_setEntry_self]
        exact writeInDir_read_self rest hrec
      · cases h
    · cases h

theorem writeInDir_read_other :
    ∀ (chain : List String) {es es2 : List (String × FSTree)} {f : String} {c : List Nat},
      writeInDir es chain f c = some es2 →
      ∀ q, q ≠ chain ++ [f] → readTree (.dir es2) q = readTree (.dir es) q
  | [], es, es2, f, c, h, q, hq => by
    rw [writeInDir] at h
    split at h
    · cases h
    · next hnotdir =>
      cases h
      cases q with
      | nil => rfl
      | cons m q' =>
        simp only [readTree]
        by_cases hm : m = f
        · subst hm
          rw [lookupEntry_setEntry_self]
          have hq' : q' ≠ [] := by
            intro he
            exact hq (by rw [he]; rfl)
          rcases hl : lookupEntry m es with _ | t
          · cases q' with
            | nil => exact absurd rfl hq'
            | cons a q'' => simp [readTree]
          · rcases t with c' | sub
            · cases q' with
              | nil => exact absurd rfl hq'
              | cons a q'' => simp [readTree]
            · exact absurd hl (hnotdir sub)
        · rw [lookupEntry_setEntry_ne _ _ hm]
  | d :: rest, es, es2, f, c, h, q, hq => by
    rw [writeInDir] at h
    split at h
    · next sub hl =>
      split at h
      · next sub2 hrec =>
        cases h
        cases q with
        | nil => rfl
        | cons m q' =>
          simp only [readTree]
          by_cases hm : m = d
          · subst hm
            rw [lookupEntry_setEntry_self, hl]
            have hq' : q' ≠ rest ++ [f] := by
              intro he
              exact hq (by rw [he]; rfl)
            exact writeInDir_read_other rest hrec q' hq'
          · rw [lookupEntry_setEntry_ne _ _ hm]
      · cases h
    · cases h


/-! ### `add_file` -/

theorem add_file_some_fl (rootdir : String) (s : Store) (p f : String) (c : Content)
    {fl : String} (hfl : firstletter p = some fl) :
    add_file rootdir s p f c =
      (if (readAt s [fl, p, f]).isSome then
        (some (.notOverwriting ("Not overwriting " ++ packagePath rootdir fl p f)), s)
      else
        match
          if (dirAt s [fl, p]).isSome then some s.shards else mkdirTree s.shards [fl, p]
        with
        | none => (some .osError, s)
        | some es1 =>
          match writeInDir es1 [fl, p] f c.readAll with
          | some es2 => (none, ⟨es2⟩)
          | none => (some .osError, ⟨es1⟩)) := by
  unfold add_file
  rw [hfl]

theorem add_file_ok {rootdir : String} {s : Store} {p f : String} {c : Content} {s' : Store}
    (h : add_file rootdir s p f c = (none, s')) :
    ∃ fl, firstletter p = some fl ∧ readAt s' [fl, p, f] = some c.readAll := by
  rcases hfl : firstletter p with _ | fl
  · unfold add_file at h
    rw [hfl] at h
    simp at h
  · refine ⟨fl, rfl, ?_⟩
    rw [add_file_some_fl rootdir s p f c hfl] at h
    split at h
    · simp at h
    · split at h
      · simp at h
      · next es1 hes1 =>
        split at h
        · next es2 hw =>
          simp only [Prod.mk.injEq] at h
          rw [← h.2]
          exact writeInDir_read_self [fl, p] hw
        · simp at h

theorem add_file_read_frame (rootdir : String) (s : Store) (p f : String) (c : Content)
    {fl : String} (hfl : firstletter p = some fl) :
    ∀ q, q ≠ [fl, p, f] → readAt (add_file rootdir s p f c).2 q = readAt s q := by
  intro q hq
  rw [add_file_some_fl rootdir s p f c hfl]
  split
  · rfl
  · have hes1 : ∀ es1,
        (if (dirAt s [fl, p]).isSome then some s.shards else mkdirTree s.shards [fl, p]) =
          some es1 →
        ∀ q', readTree (.dir es1) q' = readTree (.dir s.shards) q' := by
      intro es1 h1 q'
      split at h1
      · cases h1; rfl
      · exact mkdirTree_read_eq [fl, p] h1 q'
    split
    · rfl
    · next es1 h1 =>
      split
      · next es2 hw =>
        show readTree (.dir es2) q = readAt s q
        rw [writeInDir_read_other [fl, p] hw q hq]
        exact hes1 es1 h1 q
      · exact hes1 es1 h1 q

theorem add_file_notOverwriting_unchanged (rootdir : String) (s : Store) (p f : String)
    (c : Content) {m : String}
    (h : (add_file rootdir s p f c).1 = some (.notOverwriting m)) :
    (add_file rootdir s p f c).2 = s := by
  rcases hfl : firstletter p with _ | fl
  · unfold add_file at h ⊢
    rw [hfl] at h ⊢
  · rw [add_file_some_fl rootdir s p f c hfl] at h ⊢
    split at h
    · next hc =>
      rw [if_pos hc]
    · next hc =>
      exfalso
      rcases hx : (if (dirAt s [fl, p]).isSome then some s.shards
          else mkdirTree s.shards [fl, p]) with _ | es1
      · simp only [hx] at h
        simp at h
      · simp only [hx] at h
        rcases hw : writeInDir es1 [fl, p] f c.readAll with _ | es2
        · simp only [hw] at h
          simp at h
        · simp only [hw] at h
          simp at h

theorem get_file_exact {rootdir : String} {s : Store} {p f fl : String} {c : List Nat}
    (fuel : Nat) (hfl : firstletter p = some fl) (hread : readAt s [fl, p, f] = some c) :
    get_file rootdir (fuel + 1) s p f = some (.ok c) := by
  simp only [get_file, hfl, hread]

/-- **C1.**  Write-then-read round-trip: if `add_file(P, F, C)` succeeds
on a store in which `(P, F)` was absent, then `get_file(P, F)` on the
resulting store succeeds — at any recursion budget, the exact-path open
hits immediately — and the bytes read are exactly `C`, whether `C` was
supplied as a byte sequence or as a readable stream. -/
theorem c1_write_then_read_roundtrip (rootdir : String) {s s' : Store} {p f fl : String}
    {c : Content} (hfl : firstletter p = some fl)
    (habsent : readAt s [fl, p, f] = none)
    (hadd : add_file rootdir s p f c = (none, s')) :
    ∀ fuel, get_file rootdir (fuel + 1) s' p f = some (.ok c.readAll) := by
  intro fuel
  obtain ⟨fl', hfl', hread⟩ := add_file_ok hadd
  rw [hfl] at hfl'
  cases hfl'
  exact get_file_exact fuel hfl hread

/-- Witness for C1 at a concrete input: adding `d.tar.gz` (supplied as
a stream) to package `Django` of the empty store and reading it back. -/
theorem c1_write_then_read_roundtrip_witness :
    get_file "/srv" 1
        (⟨[("D", .dir [("Django", .dir [("d.tar.gz", .file [1, 2])])])]⟩ : Store)
        "Django" "d.tar.gz" = some (.ok [1, 2]) :=
  @c1_write_then_read_roundtrip "/srv" ⟨[]⟩
    ⟨[("D", .dir [("Django", .dir [("d.tar.gz", .file [1, 2])])])]⟩
    "Django" "d.tar.gz" "D" (.stream [1, 2]) rfl rfl rfl 0

/-- **C2.**  Write-once with atomicity on rejection: after a successful
`add_file(P, F, C1)`, a second `add_file(P, F, C2)` fails with a
`NotOverwritingError` naming the computed path, the store is returned
unchanged, and the stored content at `(P, F)` is still `C1`. -/
theorem c2_write_once (rootdir : String) {s s' : Store} {p f : String} {c1 : Content}
    (c2 : Content) (hadd : add_file rootdir s p f c1 = (none, s')) :
    ∃ fl, firstletter p = some fl ∧
      add_file rootdir s' p f c2 =
        (some (.notOverwriting ("Not overwriting " ++ packagePath rootdir fl p f)), s') ∧
      readAt s' [fl, p, f] = some c1.readAll := by
  obtain ⟨fl, hfl, hread⟩ := add_file_ok hadd
  refine ⟨fl, hfl, ?_, hread⟩
  rw [add_file_some_fl rootdir s' p f c2 hfl, if_pos (by rw [hread]; rfl)]

/-- Witness for C2 at a concrete input: the second write of `f` to
package `foo` is rejected with the computed path and leaves the first
content in place. -/
theorem c2_write_once_witness :
    add_file "/srv" (⟨[("f", .dir [("foo", .dir [("f", .file [1])])])]⟩ : Store)
        "foo" "f" (.bytes [2]) =
      (some (.notOverwriting "Not overwriting /srv/packages/f/foo/f"),
        ⟨[("f", .dir [("foo", .dir [("f", .file [1])])])]⟩) ∧
    readAt (⟨[("f", .dir [("foo", .dir [("f", .file [1])])])]⟩ : Store) ["f", "foo", "f"] =
      some [1] := by
  obtain ⟨fl, hfl, hsecond, hread⟩ :=
    @c2_write_once "/srv" ⟨[]⟩ ⟨[("f", .dir [("foo", .dir [("f", .file [1])])])]⟩
      "foo" "f" (.bytes [1]) (.bytes [2]) rfl
  obtain rfl := Option.some.inj ((rfl : firstletter "foo" = some "f").symm.trans hfl)
  exact ⟨hsecond, hread⟩

/-- **C10.**  Frame property of `add_file`: whatever the outcome, the
call leaves the bytes of every file other than the target
`packages/<P[0]>/<P>/<F>` unchanged (on success it only creates the
target file and missing parent directories), and when it fails with
`NotOverwritingError` the store is completely unchanged. -/
theorem c10_add_file_frame (rootdir : String) (s : Store) (p f : String) (c : Content)
    {fl : String} (hfl : firstletter p = some fl) :
    (∀ q, q ≠ [fl, p, f] → readAt (add_file rootdir s p f c).2 q = readAt s q) ∧
    (∀ m, (add_file rootdir s p f c).1 = some (.notOverwriting m) →
      (add_file rootdir s p f c).2 = s) :=
  ⟨add_file_read_frame rootdir s p f c hfl,
   fun _ h => add_file_notOverwriting_unchanged rootdir s p f c h⟩

/-- Witness for C10 at a concrete input: adding a second file to `foo`
does not disturb the first file's bytes. -/
theorem c10_add_file_frame_witness :
    readAt (add_file "/srv" (⟨[("f", .dir [("foo", .dir [("f1", .file [1])])])]⟩ : Store)
        "foo" "f2" (.bytes [2])).2 ["f", "foo", "f1"] =
      readAt (⟨[("f", .dir [("foo", .dir [("f1", .file [1])])])]⟩ : Store) ["f", "foo", "f1"] :=
  (c10_add_file_frame "/srv" _ "foo" "f2" (.bytes [2]) rfl).1 ["f", "foo", "f1"] (by decide)

/-! ### `get_file_path` -/

theorem string_data_append (a b : String) : (a ++ b).data = a.data ++ b.data := rfl

theorem packagePath_eq (rootdir fl p f : String) (h1 : rootdir ≠ "")
    (h2 : endsWithSlash rootdir = false) :
    packagePath rootdir fl p f = rootdir ++ "/packages/" ++ fl ++ "/" ++ p ++ "/" ++ f := by
  unfold packagePath osJoin
  have hb : startsWithSlash ("packages/" ++ fl ++ "/" ++ p ++ "/" ++ f) = false := rfl
  rw [hb]
  rw [if_neg (by simp)]
  rw [if_neg (by simp [h1, h2])]
  apply String.ext
  simp [string_data_append, List.append_assoc]

/-- **C9.**  `get_file_path` computes the fixed layout
`<root>/packages/<P[0]>/<P>/<F>` for every non-empty package name, and
is deterministic (equal inputs give equal outputs); it is pure by
construction, being a total function of its arguments in this model. -/
theorem c9_get_file_path_layout (rootdir p f : String) {ch : Char} {rest : List Char}
    (h1 : rootdir ≠ "") (h2 : endsWithSlash rootdir = false) (hp : p.data = ch :: rest) :
    get_file_path rootdir p f =
      some (rootdir ++ "/packages/" ++ String.mk [ch] ++ "/" ++ p ++ "/" ++ f) ∧
    ∀ r2 p2 f2 : String, r2 = rootdir → p2 = p → f2 = f →
      get_file_path r2 p2 f2 = get_file_path rootdir p f := by
  constructor
  · have hfl : firstletter p = some (String.mk [ch]) := by
      unfold firstletter
      rw [hp]
    simp only [get_file_path, hfl, Option.map_some']
    rw [packagePath_eq rootdir (String.mk [ch]) p f h1 h2]
  · intro r2 p2 f2 hr hp2 hf2
    rw [hr, hp2, hf2]

/-- Witness for C9 at a concrete input. -/
theorem c9_get_file_path_layout_witness :
    get_file_path "/data" "Django" "d.tar.gz" = some "/data/packages/D/Django/d.tar.gz" := by
  have h := @c9_get_file_path_layout "/data" "Django" "d.tar.gz" 'D' "jango".data
    (by decide) rfl rfl
  exact h.1.trans rfl

/-! ### `list_packages`: membership -/

theorem globEntries_elim {s : Store} {x : String × Bool × String} (hx : x ∈ globEntries s) :
    ∃ e ∈ s.shards, ∃ es, e.2 = FSTree.dir es ∧ e.1.length = 1 ∧ startsWithDot e.1 = false ∧
      ∃ e2 ∈ es, startsWithDot e2.1 = false ∧ x = (e.1 ++ "/" ++ e2.1, isDirT e2.2, e2.1) := by
  unfold globEntries at hx
  rw [List.mem_flatMap] at hx
  obtain ⟨e, he, hx⟩ := hx
  unfold shardGlob at hx
  split at hx
  · next hc =>
    split at hx
    · next es het =>
      rw [List.mem_filterMap] at hx
      obtain ⟨e2, he2, hx⟩ := hx
      split at hx
      · next hdot =>
        cases hx
        exact ⟨e, he, es, het, hc.1, hc.2, e2, he2, hdot, rfl⟩
      · cases hx
    · cases hx
  · cases hx

theorem globEntries_intro {s : Store} {e : String × FSTree} {es : List (String × FSTree)}
    {e2 : String × FSTree} (he : e ∈ s.shards) (het : e.2 = FSTree.dir es)
    (hlen : e.1.length = 1) (hdot : startsWithDot e.1 = false) (he2 : e2 ∈ es)
    (hdot2 : startsWithDot e2.1 = false) :
    (e.1 ++ "/" ++ e2.1, isDirT e2.2, e2.1) ∈ globEntries s := by
  unfold globEntries
  rw [List.mem_flatMap]
  refine ⟨e, he, ?_⟩
  unfold shardGlob
  rw [if_pos ⟨hlen, hdot⟩]
  simp only [het]
  rw [List.mem_filterMap]
  exact ⟨e2, he2, by rw [if_pos hdot2]⟩

theorem list_packages_mem_elim {s : Store} {n : String} (h : n ∈ list_packages s) :
    ∃ x ∈ globEntries s, x.2.1 = true ∧ x.2.2 = n := by
  unfold list_packages at h
  rw [List.mem_map] at h
  obtain ⟨x, hx, hxn⟩ := h
  rw [List.mem_filter] at hx
  exact ⟨x, (List.perm_insertionSort globLe _).mem_iff.mp hx.1, hx.2, hxn⟩

theorem list_packages_intro {s : Store} {e : String × FSTree} {es : List (String × FSTree)}
    {e2 : String × FSTree} (he : e ∈ s.shards) (het : e.2 = FSTree.dir es)
    (hlen : e.1.length = 1) (hdot : startsWithDot e.1 = false) (he2 : e2 ∈ es)
    (hdot2 : startsWithDot e2.1 = false) (hdir : isDirT e2.2 = true) :
    e2.1 ∈ list_packages s := by
  unfold list_packages
  rw [List.mem_map]
  refine ⟨(e.1 ++ "/" ++ e2.1, isDirT e2.2, e2.1), ?_, rfl⟩
  rw [List.mem_filter]
  exact ⟨(List.perm_insertionSort globLe _).mem_iff.mpr
      (globEntries_intro he het hlen hdot he2 hdot2), hdir⟩

theorem dirAt_pair_inv {s : Store} {L P : String} {es2 : List (String × FSTree)}
    (h : dirAt s [L, P] = some es2) :
    ∃ es, lookupEntry L s.shards = some (FSTree.dir es) ∧
      lookupEntry P es = some (FSTree.dir es2) := by
  unfold dirAt at h
  rw [subdirAt] at h
  split at h
  · next t hl =>
    rcases t with c | es
    · rw [subdirAt] at h
      cases h
    · rw [subdirAt] at h
      split at h
      · next t2 hl2 =>
        rcases t2 with c2 | es2'
        · rw [subdirAt] at h
          cases h
        · rw [subdirAt] at h
          cases h
          exact ⟨es, hl, hl2⟩
      · cases h
  · cases h

theorem dirAt_of_lookups {s : Store} {L P : String} {es es2 : List (String × FSTree)}
    (h1 : lookupEntry L s.shards = some (FSTree.dir es))
    (h2 : lookupEntry P es = some (FSTree.dir es2)) :
    dirAt s [L, P] = some es2 := by
  unfold dirAt
  rw [subdirAt]
  simp only [h1]
  rw [subdirAt]
  simp only [h2]
  rw [subdirAt]

theorem readAt_triple_inv {s : Store} {L P F : String} {C : List Nat}
    (h : readAt s [L, P, F] = some C) :
    ∃ es es2, lookupEntry L s.shards = some (FSTree.dir es) ∧
      lookupEntry P es = some (FSTree.dir es2) ∧
      lookupEntry F es2 = some (FSTree.file C) := by
  unfold readAt at h
  rw [readTree] at h
  split at h
  · next t hl =>
    rcases t with c | es
    · rw [readTree] at h
      cases h
    · rw [readTree] at h
      split at h
      · next t2 hl2 =>
        rcases t2 with c2 | es2
        · rw [readTree] at h
          cases h
        · rw [readTree] at h
          split at h
          · next t3 hl3 =>
            rcases t3 with c3 | es3
            · rw [readTree] at h
              cases h
              exact ⟨es, es2, hl, hl2, hl3⟩
            · rw [readTree] at h
              cases h
          · cases h
      · cases h
  · cases h

theorem readAt_of_lookups {s : Store} {L P F : String} {es es2 : List (String × FSTree)}
    {C : List Nat} (h1 : lookupEntry L s.shards = some (FSTree.dir es))
    (h2 : lookupEntry P es = some (FSTree.dir es2))
    (h3 : lookupEntry F es2 = some (FSTree.file C)) :
    readAt s [L, P, F] = some C := by
  unfold readAt
  rw [readTree]
  simp only [h1]
  rw [readTree]
  simp only [h2]
  rw [readTree]
  simp only [h3]
  rw [readTree]

/-- Every package name yielded by `list_packages` of a well-formed
store has an existing directory under its own first letter, so a
recursive `list_files` on it terminates at once. -/
theorem mem_list_packages_dirAt {s : Store} {mp : String} (hwf : WFStore s)
    (h : mp ∈ list_packages s) :
    ∃ L es2, firstletter mp = some L ∧ dirAt s [L, mp] = some es2 := by
  obtain ⟨x, hx, hxdir, hxn⟩ := list_packages_mem_elim h
  obtain ⟨e, he, es, het, hlen, hdot, e2, he2, hdot2, hxe⟩ := globEntries_elim hx
  subst hxe
  obtain ⟨hfln, hdotn⟩ := by
    have hnode := (hwf.2 e he).2.2
    rw [het] at hnode
    exact (hnode : WFEntries e.1 es).2 e2 he2
  rcases hu : e2.2 with c | esd
  · rw [hu] at hxdir
    cases hxdir
  · have hshard : (e.1, FSTree.dir es) ∈ s.shards := by
      rw [← het]
      exact he
    have hl1 : lookupEntry e.1 s.shards = some (FSTree.dir es) :=
      lookupEntry_of_mem_nodup hwf.1 hshard
    have hent : (e2.1, FSTree.dir esd) ∈ es := by
      rw [← hu]
      exact he2
    have hnodup : (es.map Prod.fst).Nodup := by
      have hnode := (hwf.2 e he).2.2
      rw [het] at hnode
      exact (hnode : WFEntries e.1 es).1
    have hl2 : lookupEntry e2.1 es = some (FSTree.dir esd) :=
      lookupEntry_of_mem_nodup hnodup hent
    simp only at hxn
    subst hxn
    exact ⟨e.1, esd, hfln, dirAt_of_lookups hl1 hl2⟩

/-- Conversely, in a well-formed store a package whose exact-case
directory exists is listed by `list_packages`. -/
theorem dirAt_mem_list_packages {s : Store} {p fl : String} {es2 : List (String × FSTree)}
    (hwf : WFStore s) (hfl : firstletter p = some fl) (hdir : dirAt s [fl, p] = some es2) :
    p ∈ list_packages s := by
  obtain ⟨es, hl1, hl2⟩ := dirAt_pair_inv hdir
  have hshard : (fl, FSTree.dir es) ∈ s.shards := lookupEntry_mem hl1
  have hmem : (p, FSTree.dir es2) ∈ es := lookupEntry_mem hl2
  obtain ⟨hlen, hdot, hnode⟩ := hwf.2 (fl, FSTree.dir es) hshard
  have hent : WFEntries fl es := hnode
  have hdot2 : startsWithDot p = false := (hent.2 (p, FSTree.dir es2) hmem).2
  exact list_packages_intro hshard rfl hlen hdot hmem hdot2 rfl

/-! ### `list_files` and the walk -/

theorem firstletter_eq_none {p : String} (h : firstletter p = none) : p.data = [] := by
  unfold firstletter at h
  split at h
  · next hp => exact hp
  · cases h

theorem firstletter_some_ne {p fl : String} (h : firstletter p = some fl) : p.data ≠ [] := by
  intro he
  unfold firstletter at h
  rw [he] at h
  exact Option.noConfusion h

theorem pyLower_data (p : String) : (pyLower p).data = p.data.map Char.toLower := rfl

theorem list_files_listed {s : Store} {mp : String} (hwf : WFStore s)
    (h : mp ∈ list_packages s) (fuel : Nat) :
    list_files (fuel + 1) s mp = some (.ok (listedRecords s mp)) := by
  obtain ⟨L, es2, hfl, hdir⟩ := mem_list_packages_dirAt hwf h
  rw [list_files]
  simp only [hfl, hdir, listedRecords]

theorem filesOfEntries_mem {es : List (String × FSTree)} {n : String} {c : List Nat} :
    (n, c) ∈ filesOfEntries es ↔ (n, FSTree.file c) ∈ es := by
  unfold filesOfEntries
  rw [List.mem_filterMap]
  constructor
  · rintro ⟨e, he, hfe⟩
    split at hfe
    · next c' hu =>
      have hinj : e.1 = n ∧ c' = c := by
        simpa using hfe
      have hmem : (e.1, e.2) ∈ es := he
      rw [hu] at hmem
      rw [hinj.1, hinj.2] at hmem
      exact hmem
    · cases hfe
  · intro h
    exact ⟨(n, .file c), h, rfl⟩

theorem walkEntries_nil :
    ∀ {es : List (String × FSTree)}, (∀ e ∈ es, isDirT e.2 = false) → walkEntries es = []
  | [], _ => rfl
  | e :: es, h => by
    rw [walkEntries]
    have h1 := h e (List.mem_cons_self _ _)
    rcases hu : e.2 with c | esd
    · rw [show walkBottomUp (FSTree.file c) = [] from rfl, List.nil_append]
      exact walkEntries_nil fun e2 hm => h e2 (List.mem_cons_of_mem _ hm)
    · rw [hu] at h1
      exact absurd h1 (by simp [isDirT])

theorem walk_flat {es : List (String × FSTree)} (h : ∀ e ∈ es, isDirT e.2 = false) :
    walkBottomUp (.dir es) = filesOfEntries es := by
  rw [walkBottomUp, walkEntries_nil h, List.nil_append]

theorem mem_walk_top {es : List (String × FSTree)} {n : String} {c : List Nat}
    (h : (n, FSTree.file c) ∈ es) : (n, c) ∈ walkBottomUp (.dir es) := by
  rw [walkBottomUp]
  exact List.mem_append.mpr (Or.inr (filesOfEntries_mem.mpr h))

theorem mem_packageRecords_intro {package fl : String} {t : FSTree} {n : String} {c : List Nat}
    (h : (n, c) ∈ walkBottomUp t) :
    (⟨package, fl, n, md5model c⟩ : FileRecord) ∈ packageRecords package fl t := by
  unfold packageRecords
  exact List.mem_map.mpr ⟨(n, c), h, rfl⟩

theorem mem_packageRecords_elim {package fl : String} {t : FSTree} {r : FileRecord}
    (h : r ∈ packageRecords package fl t) :
    ∃ nc ∈ walkBottomUp t, r = ⟨package, fl, nc.1, md5model nc.2⟩ := by
  unfold packageRecords at h
  rw [List.mem_map] at h
  obtain ⟨nc, h1, h2⟩ := h
  exact ⟨nc, h1, h2.symm⟩

/-! ### The fishing loop of `get_file` -/

theorem findMatch_all_miss {lf : String → Option (Except Err (List FileRecord))}
    {package filename : String} :
    ∀ {l : List String},
      (∀ mp ∈ l, pyLower package = pyLower mp →
        ∃ recs, lf mp = some (.ok recs) ∧
          ∀ r ∈ recs, ¬ pyLower r.filename = pyLower filename) →
      findMatch lf package filename l = some (.ok none)
  | [], _ => rfl
  | mp :: rest, h => by
    rw [findMatch]
    by_cases hc : pyLower package = pyLower mp
    · rw [if_pos (by simp [hc])]
      obtain ⟨recs, hlf, hnone⟩ := h mp (List.mem_cons_self _ _) hc
      have hfind : recs.find? (fun r => pyLower r.filename == pyLower filename) = none :=
        List.find?_eq_none.mpr fun r hr => by
          simp only [beq_iff_eq]
          exact fun hh => hnone r hr hh
      simp only [hlf, hfind]
      exact findMatch_all_miss fun mp2 hm hc2 => h mp2 (List.mem_cons_of_mem _ hm) hc2
    · rw [if_neg (by simp [beq_iff_eq]; exact fun hh => hc hh)]
      exact findMatch_all_miss fun mp2 hm hc2 => h mp2 (List.mem_cons_of_mem _ hm) hc2

theorem findMatch_found {lf : String → Option (Except Err (List FileRecord))}
    {package filename P : String} {recs : List FileRecord} {r0 : FileRecord} :
    ∀ {l : List String},
      (∀ mp ∈ l, pyLower mp = pyLower package → mp = P) → P ∈ l →
      pyLower P = pyLower package → lf P = some (.ok recs) →
      recs.find? (fun r => pyLower r.filename == pyLower filename) = some r0 →
      findMatch lf package filename l = some (.ok (some (P, r0.filename)))
  | [], _, hmem, _, _, _ => absurd hmem (List.not_mem_nil P)
  | mp :: rest, huniq, hmem, hlow, hlf, hfind => by
    rw [findMatch]
    by_cases hc : pyLower mp = pyLower package
    · have he : mp = P := huniq mp (List.mem_cons_self _ _) hc
      subst he
      rw [if_pos (by simp [hc.symm])]
      simp only [hlf, hfind]
    · have hP : P ∈ rest := by
        rcases List.mem_cons.mp hmem with h | h
        · exact absurd (h ▸ hlow) hc
        · exact h
      rw [if_neg (by simp only [beq_iff_eq]; exact fun hh => hc hh.symm)]
      exact findMatch_found
        (fun mp2 hm hc2 => huniq mp2 (List.mem_cons_of_mem _ hm) hc2) hP hlow hlf hfind

theorem findMatch_ok_of_all {lf : String → Option (Except Err (List FileRecord))}
    {package filename : String} :
    ∀ {l : List String}, (∀ mp ∈ l, ∃ recs, lf mp = some (.ok recs)) →
      ∃ out, findMatch lf package filename l = some (.ok out)
  | [], _ => ⟨none, rfl⟩
  | mp :: rest, h => by
    by_cases hc : (pyLower package == pyLower mp) = true
    · obtain ⟨recs, hlf⟩ := h mp (List.mem_cons_self _ _)
      rcases hfind : recs.find? (fun r => pyLower r.filename == pyLower filename) with _ | r
      · obtain ⟨out, hout⟩ :=
          findMatch_ok_of_all (l := rest) fun mp2 hm => h mp2 (List.mem_cons_of_mem _ hm)
        exact ⟨out, by rw [findMatch, if_pos hc]; simp only [hlf, hfind]; exact hout⟩
      · exact ⟨some (mp, r.filename), by rw [findMatch, if_pos hc]; simp only [hlf, hfind]⟩
    · obtain ⟨out, hout⟩ :=
        findMatch_ok_of_all (l := rest) fun mp2 hm => h mp2 (List.mem_cons_of_mem _ hm)
      exact ⟨out, by rw [findMatch, if_neg hc]; exact hout⟩

theorem findMatch_ok_some_elim {lf : String → Option (Except Err (List FileRecord))}
    {package filename : String} :
    ∀ {l : List String} {mp fn : String},
      findMatch lf package filename l = some (.ok (some (mp, fn))) →
      mp ∈ l ∧ ∃ recs r, lf mp = some (.ok recs) ∧ r ∈ recs ∧ r.filename = fn
  | [], mp, fn, h => by simp [findMatch] at h
  | mp0 :: rest, mp, fn, h => by
    rw [findMatch] at h
    split at h
    · rcases hlf : lf mp0 with _ | er
      · simp only [hlf] at h
        cases h
      · rcases er with e | recs
        · simp only [hlf] at h
          simp at h
        · simp only [hlf] at h
          rcases hfind : recs.find? (fun r => pyLower r.filename == pyLower filename)
            with _ | r
          · simp only [hfind] at h
            obtain ⟨hm, recs2, r2, h1, h2, h3⟩ := findMatch_ok_some_elim h
            exact ⟨List.mem_cons_of_mem _ hm, recs2, r2, h1, h2, h3⟩
          · simp only [hfind] at h
            have hinj : mp0 = mp ∧ r.filename = fn := by simpa using h
            rw [← hinj.1, ← hinj.2]
            exact ⟨List.mem_cons_self _ _, recs, r, hlf, List.mem_of_find?_eq_some hfind,
              rfl⟩
    · obtain ⟨hm, recs2, r2, h1, h2, h3⟩ := findMatch_ok_some_elim h
      exact ⟨List.mem_cons_of_mem _ hm, recs2, r2, h1, h2, h3⟩

theorem find?_pyLower_uniq :
    ∀ {l : List String} {P Pr : String},
      (∀ mp ∈ l, pyLower mp = pyLower Pr → mp = P) → P ∈ l → pyLower P = pyLower Pr →
      List.find? (fun mp => pyLower mp == pyLower Pr) l = some P
  | [], P, _, _, hmem, _ => absurd hmem (List.not_mem_nil P)
  | mp :: rest, P, Pr, huniq, hmem, hlow => by
    by_cases hc : pyLower mp = pyLower Pr
    · have he : mp = P := huniq mp (List.mem_cons_self _ _) hc
      subst he
      exact List.find?_cons_of_pos _ (by simp [hc])
    · rw [List.find?_cons_of_neg _ (by simp only [beq_iff_eq]; exact fun hh => hc hh)]
      have hP : P ∈ rest := by
        rcases List.mem_cons.mp hmem with h | h
        · exact absurd (h ▸ hlow) hc
        · exact h
      exact find?_pyLower_uniq
        (fun mp2 hm hc2 => huniq mp2 (List.mem_cons_of_mem _ hm) hc2) hP hlow

/-- **C4.**  Case-insensitive listing resolution with first-match
delegation: in a store satisfying the documented sharding invariant and
containing exactly one package whose lowercase name equals
`lower(P')` — the canonical `P` — `list_files(P')` yields exactly the
records of `list_files(P)` (when the exact-case directory for `P'` is
absent, the whole listing is delegated to the first case-insensitive
match; otherwise `P'` is itself that unique package). -/
theorem c4_case_insensitive_listing {s : Store} {P P' : String}
    (hwf : WFStore s) (hmem : P ∈ list_packages s) (hlow : pyLower P = pyLower P')
    (huniq : ∀ mp ∈ list_packages s, pyLower mp = pyLower P' → mp = P) :
    ∀ fuel, list_files (fuel + 2) s P' = some (.ok (listedRecords s P)) ∧
      list_files (fuel + 1) s P = some (.ok (listedRecords s P)) := by
  intro fuel
  have hP := list_files_listed hwf hmem fuel
  refine ⟨?_, hP⟩
  rcases hfl' : firstletter P' with _ | fl'
  · exfalso
    have hdata : P'.data = [] := firstletter_eq_none hfl'
    obtain ⟨L, es2, hflP, _⟩ := mem_list_packages_dirAt hwf hmem
    apply firstletter_some_ne hflP
    have hd : (pyLower P).data = (pyLower P').data := by rw [hlow]
    rw [pyLower_data, pyLower_data, hdata] at hd
    simpa using hd
  · rw [show fuel + 2 = (fuel + 1) + 1 from rfl, list_files]
    simp only [hfl']
    rcases hdir' : dirAt s [fl', P'] with _ | es2'
    · simp only [hdir']
      rw [find?_pyLower_uniq huniq hmem hlow]
      exact hP
    · simp only [hdir']
      have hP'mem : P' ∈ list_packages s := dirAt_mem_list_packages hwf hfl' hdir'
      have he : P' = P := huniq P' hP'mem rfl
      subst he
      simp only [listedRecords, hfl', hdir']

/-- Witness for C4 at a concrete input: listing `DJANGO` when only
`Django` exists yields the records of `Django`. -/
theorem c4_case_insensitive_listing_witness :
    list_files 2 (⟨[("D", .dir [("Django", .dir [("Django-1.0.tar.gz", .file [1, 2])])])]⟩ :
        Store) "DJANGO" =
      some (.ok [⟨"Django", "D", "Django-1.0.tar.gz", [1, 2]⟩]) ∧
    list_files 1 (⟨[("D", .dir [("Django", .dir [("Django-1.0.tar.gz", .file [1, 2])])])]⟩ :
        Store) "Django" =
      some (.ok [⟨"Django", "D", "Django-1.0.tar.gz", [1, 2]⟩]) := by
  have h := @c4_case_insensitive_listing
    ⟨[("D", .dir [("Django", .dir [("Django-1.0.tar.gz", .file [1, 2])])])]⟩
    "Django" "DJANGO" (by decide) (by decide) (by decide) (by decide) 0
  exact ⟨h.1.trans rfl, h.2.trans rfl⟩

/-- Counterexample for **C7**: the claim quantifies over every package
string with no non-emptiness precondition, but `list_files("")` raises
`IndexError` (from `package[0]`) instead of yielding a sequence. -/
theorem c7_counterexample :
    list_files 1 (⟨[]⟩ : Store) "" = some (.error .indexError) := rfl

/-- **C7 (amended).**  For every store satisfying the sharding
invariant and every *non-empty* package string `P`, `list_files(P)`
terminates without raising; when no package matches `P` exactly or
case-insensitively, it yields the empty sequence. -/
theorem c7_list_files_total {s : Store} {p : String} (hwf : WFStore s) {ch : Char}
    {tl : List Char} (hp : p.data = ch :: tl) :
    ∀ fuel, ∃ R, list_files (fuel + 2) s p = some (.ok R) ∧
      ((∀ mp ∈ list_packages s, ¬ pyLower mp = pyLower p) → R = []) := by
  intro fuel
  have hfl : firstletter p = some (String.mk [ch]) := by
    unfold firstletter
    rw [hp]
  rcases hdir : dirAt s [String.mk [ch], p] with _ | es2
  · rcases hfind : (list_packages s).find? (fun mp => pyLower mp == pyLower p) with _ | mp
    · refine ⟨[], ?_, fun _ => rfl⟩
      rw [show fuel + 2 = (fuel + 1) + 1 from rfl, list_files]
      simp only [hfl, hdir, hfind]
    · have hm := List.mem_of_find?_eq_some hfind
      refine ⟨listedRecords s mp, ?_, ?_⟩
      · rw [show fuel + 2 = (fuel + 1) + 1 from rfl, list_files]
        simp only [hfl, hdir, hfind]
        exact list_files_listed hwf hm fuel
      · intro hnone
        exfalso
        have hpred := List.find?_some hfind
        exact hnone mp hm (by simpa using hpred)
  · refine ⟨packageRecords p (String.mk [ch]) (.dir es2), ?_, ?_⟩
    · rw [show fuel + 2 = (fuel + 1) + 1 from rfl, list_files]
      simp only [hfl, hdir]
    · intro hnone
      exact absurd rfl (hnone p (dirAt_mem_list_packages hwf hfl hdir))

/-- Witness for amended C7 at a concrete input: listing an absent
package yields the empty sequence, not an error. -/
theorem c7_list_files_total_witness :
    list_files 2 (⟨[("D", .dir [("Django", .dir [])])]⟩ : Store) "nosuchpkg" =
      some (.ok []) := by
  obtain ⟨R, h1, h2⟩ := @c7_list_files_total ⟨[("D", .dir [("Django", .dir [])])]⟩
    "nosuchpkg" (by decide) 'n' "osuchpkg".data rfl 0
  rw [h2 (by decide)] at h1
  exact h1

/-- Counterexample for **C5**: the claim quantifies over every package
`P` with no match in the store, including `P = ""`; there the code
raises `IndexError` from `package[0]` before any lookup, not the
claimed `NotFound`. -/
theorem c5_counterexample :
    get_file "/r" 1 (⟨[]⟩ : Store) "" "x" = some (.error .indexError) := rfl

/-- **C5 (amended).**  For every store satisfying the sharding
invariant and every *non-empty* package `P` and file `F` with neither
an exact-case nor any case-insensitive match, `get_file(P, F)` fails
with `NotFound` whose message carries the original package, the
original filename and the computed path — and only after the fuzzy
fallback scan over all listed packages has come up empty. -/
theorem c5_not_found {rootdir : String} {s : Store} {p f fl : String} (hwf : WFStore s)
    (hfl : firstletter p = some fl)
    (hmiss : readAt s [fl, p, f] = none)
    (hnom : ∀ mp ∈ list_packages s, pyLower p = pyLower mp →
      ∀ r ∈ listedRecords s mp, ¬ pyLower r.filename = pyLower f) :
    ∀ fuel, get_file rootdir (fuel + 2) s p f =
      some (.error (.notFound (notFoundMsg p f (packagePath rootdir fl p f)))) := by
  intro fuel
  rw [show fuel + 2 = (fuel + 1) + 1 from rfl, get_file]
  simp only [hfl, hmiss]
  have hfm : findMatch (list_files (fuel + 1) s) p f (list_packages s) = some (.ok none) :=
    findMatch_all_miss fun mp hm hc =>
      ⟨listedRecords s mp, list_files_listed hwf hm fuel, fun r hr => hnom mp hm hc r hr⟩
  simp only [hfm]

/-- Witness for amended C5 at a concrete input: the spec's own example,
`get_file("nosuchpkg", "x")` on an empty store, fails with `NotFound`
referencing `.../packages/n/nosuchpkg/x`. -/
theorem c5_not_found_witness :
    get_file "/r" 2 (⟨[]⟩ : Store) "nosuchpkg" "x" =
      some (.error (.notFound "Package nosuchpkg: x not found in /r/packages/n/nosuchpkg/x")) :=
  @c5_not_found "/r" ⟨[]⟩ "nosuchpkg" "x" "n" (by decide) rfl rfl (by decide) 0

/-- Counterexample for **C3**: the claim quantifies over *every* store
in which `(P, F)` is physically stored.  In a store that also holds a
second case-variant of the same package — here `DJANGO` next to
`Django`, both legal under the sharding invariant — the fishing scan
resolves the lowercase request to the *first* case-insensitive match in
enumeration order (`DJANGO`, which sorts before `Django`), so
`get_file("django", "django-1.0.tar.gz")` returns `DJANGO`'s bytes
while `get_file("Django", "Django-1.0.tar.gz")` returns `Django`'s
bytes, and the two differ. -/
theorem c3_counterexample :
    get_file "/r" 3
        (⟨[("D", .dir [("DJANGO", .dir [("Django-1.0.TAR.GZ", .file [1])]),
                       ("Django", .dir [("Django-1.0.tar.gz", .file [2])])])]⟩ : Store)
        "django" "django-1.0.tar.gz" = some (.ok [1]) ∧
    get_file "/r" 3
        (⟨[("D", .dir [("DJANGO", .dir [("Django-1.0.TAR.GZ", .file [1])]),
                       ("Django", .dir [("Django-1.0.tar.gz", .file [2])])])]⟩ : Store)
        "Django" "Django-1.0.tar.gz" = some (.ok [2]) ∧
    ([1] : List Nat) ≠ [2] :=
  ⟨rfl, rfl, by decide⟩

/-- **C3 (amended).**  Case-insensitive read resolution holds whenever
the stored pair `(P, F)` is the *unique* case-insensitive match for the
request `(P', F')` in a store satisfying the sharding invariant: then
`get_file(P', F')` succeeds and returns the same bytes as
`get_file(P, F)`. -/
theorem c3_case_insensitive_read {rootdir : String} {s : Store} {P F P' F' L : String}
    {C : List Nat} (hwf : WFStore s)
    (hflP : firstletter P = some L)
    (hstored : readAt s [L, P, F] = some C)
    (hlowP : pyLower P' = pyLower P) (hlowF : pyLower F' = pyLower F)
    (huniqP : ∀ mp ∈ list_packages s, pyLower mp = pyLower P' → mp = P)
    (huniqF : ∀ r ∈ listedRecords s P, pyLower r.filename = pyLower F' → r.filename = F) :
    ∀ fuel, get_file rootdir (fuel + 2) s P' F' = some (.ok C) ∧
      get_file rootdir (fuel + 1) s P F = some (.ok C) := by
  intro fuel
  have hexact : get_file rootdir (fuel + 1) s P F = some (.ok C) :=
    get_file_exact fuel hflP hstored
  refine ⟨?_, hexact⟩
  obtain ⟨es, es2, hl1, hl2, hl3⟩ := readAt_triple_inv hstored
  have hdirP : dirAt s [L, P] = some es2 := dirAt_of_lookups hl1 hl2
  have hrecs : listedRecords s P = packageRecords P L (.dir es2) := by
    simp only [listedRecords, hflP, hdirP]
  have hFrec : (⟨P, L, F, md5model C⟩ : FileRecord) ∈ listedRecords s P := by
    rw [hrecs]
    exact mem_packageRecords_intro (mem_walk_top (lookupEntry_mem hl3))
  have hPmem : P ∈ list_packages s := dirAt_mem_list_packages hwf hflP hdirP
  rcases hflq : firstletter P' with _ | Lq
  · exfalso
    have hdata : P'.data = [] := firstletter_eq_none hflq
    apply firstletter_some_ne hflP
    have hd : (pyLower P).data = (pyLower P').data := by rw [hlowP]
    rw [pyLower_data, pyLower_data, hdata] at hd
    simpa using hd
  · rw [show fuel + 2 = (fuel + 1) + 1 from rfl, get_file]
    simp only [hflq]
    rcases hx : readAt s [Lq, P', F'] with _ | c0
    · simp only [hx]
      have hsome : ((listedRecords s P).find?
          (fun r => pyLower r.filename == pyLower F')).isSome :=
        List.find?_isSome.mpr ⟨⟨P, L, F, md5model C⟩, hFrec, by simp [beq_iff_eq, hlowF.symm]⟩
      obtain ⟨r0, hr0⟩ := Option.isSome_iff_exists.mp hsome
      have hr0name : r0.filename = F := by
        apply huniqF r0 (List.mem_of_find?_eq_some hr0)
        have hpred := List.find?_some hr0
        simpa [beq_iff_eq] using hpred
      have hfm : findMatch (list_files (fuel + 1) s) P' F' (list_packages s) =
          some (.ok (some (P, r0.filename))) :=
        findMatch_found (fun mp hm hc => huniqP mp hm hc) hPmem hlowP.symm
          (list_files_listed hwf hPmem fuel) hr0
      simp only [hfm]
      rw [hr0name]
      exact hexact
    · simp only [hx]
      obtain ⟨esq, esq2, hql1, hql2, hql3⟩ := readAt_triple_inv hx
      have hqdir : dirAt s [Lq, P'] = some esq2 := dirAt_of_lookups hql1 hql2
      have hqmem : P' ∈ list_packages s := dirAt_mem_list_packages hwf hflq hqdir
      have hPq : P' = P := huniqP P' hqmem rfl
      subst hPq
      obtain rfl : Lq = L := Option.some.inj (hflq.symm.trans hflP)
      have hes : FSTree.dir esq = FSTree.dir es := Option.some.inj (hql1.symm.trans hl1)
      injection hes with hes
      subst hes
      have hes2 : FSTree.dir esq2 = FSTree.dir es2 := Option.some.inj (hql2.symm.trans hl2)
      injection hes2 with hes2
      subst hes2
      have hFrec' : (⟨P', Lq, F', md5model c0⟩ : FileRecord) ∈ listedRecords s P' := by
        rw [hrecs]
        exact mem_packageRecords_intro (mem_walk_top (lookupEntry_mem hql3))
      have hFq : F' = F := huniqF _ hFrec' rfl
      subst hFq
      have hc0 : FSTree.file c0 = FSTree.file C := Option.some.inj (hql3.symm.trans hl3)
      injection hc0 with hc0
      rw [hc0]

/-- Witness for amended C3 at a concrete input: the spec's own example
with a single stored `Django` package. -/
theorem c3_case_insensitive_read_witness :
    get_file "/r" 2
        (⟨[("D", .dir [("Django", .dir [("Django-1.0.tar.gz", .file [9])])])]⟩ : Store)
        "django" "django-1.0.tar.gz" = some (.ok [9]) ∧
    get_file "/r" 1
        (⟨[("D", .dir [("Django", .dir [("Django-1.0.tar.gz", .file [9])])])]⟩ : Store)
        "Django" "Django-1.0.tar.gz" = some (.ok [9]) :=
  @c3_case_insensitive_read "/r"
    ⟨[("D", .dir [("Django", .dir [("Django-1.0.tar.gz", .file [9])])])]⟩
    "Django" "Django-1.0.tar.gz" "django" "django-1.0.tar.gz" "D" [9]
    (by decide) rfl rfl (by decide) (by decide) (by decide) (by decide) 0

/-! ### Termination of `get_file` -/

/-- On the concrete store holding `packages/D/Django/sub/x.tar.gz` (a
file nested one directory deep), the `get_file("Django", "x.tar.gz")`
recursion never terminates: the exact-path open misses, the fishing
scan finds the walked record `x.tar.gz` (a bare basename) in package
`Django`, and the retry recurses with exactly the same arguments. -/
theorem get_file_nested_diverges :
    ∀ fuel, get_file "/r" fuel
      (⟨[("D", .dir [("Django", .dir [("sub", .dir [("x.tar.gz", .file [7])])])])]⟩ : Store)
      "Django" "x.tar.gz" = none := by
  intro fuel
  induction fuel with
  | zero => rfl
  | succ g ih =>
    cases g with
    | zero => rfl
    | succ g2 =>
      have hlf : list_files (g2 + 1)
          (⟨[("D", .dir [("Django", .dir [("sub", .dir [("x.tar.gz", .file [7])])])])]⟩ :
            Store) "Django" =
          some (.ok [⟨"Django", "D", "x.tar.gz", [7]⟩]) := by
        rw [list_files]
        rfl
      have hfm : findMatch
          (list_files (g2 + 1)
            (⟨[("D", .dir [("Django", .dir [("sub", .dir [("x.tar.gz", .file [7])])])])]⟩ :
              Store))
          "Django" "x.tar.gz" ["Django"] = some (.ok (some ("Django", "x.tar.gz"))) := by
        rw [findMatch,
          if_pos (show (pyLower "Django" == pyLower "Django") = true from rfl), hlf]
        rfl
      have hstep : get_file "/r" (g2 + 1 + 1)
          (⟨[("D", .dir [("Django", .dir [("sub", .dir [("x.tar.gz", .file [7])])])])]⟩ :
            Store) "Django" "x.tar.gz" =
          (match findMatch
              (list_files (g2 + 1)
                (⟨[("D", .dir [("Django", .dir [("sub", .dir [("x.tar.gz", .file [7])])])])]⟩ :
                  Store))
              "Django" "x.tar.gz" ["Django"] with
            | none => none
            | some (Except.error e) => some (Except.error e)
            | some (Except.ok (some mpfn)) =>
              get_file "/r" (g2 + 1)
                (⟨[("D", .dir [("Django", .dir [("sub", .dir [("x.tar.gz", .file [7])])])])]⟩ :
                  Store) mpfn.1 mpfn.2
            | some (Except.ok none) =>
              some (Except.error (.notFound
                (notFoundMsg "Django" "x.tar.gz" "/r/packages/D/Django/x.tar.gz")))) := rfl
      rw [hstep, hfm]
      exact ih

/-- Counterexample for **C6**: the claim asserts termination of
`get_file` on *every* finite store, but on the finite store with the
nested file `packages/D/Django/sub/x.tar.gz` — a layout the
specification itself admits, since `enumerate_files` walks nested
subdirectories — no recursion budget suffices: the fished filename is a
bare basename whose exact-case open misses again, so the retry loops
forever. -/
theorem c6_counterexample :
    ¬ GetFileTerminates "/r"
      (⟨[("D", .dir [("Django", .dir [("sub", .dir [("x.tar.gz", .file [7])])])])]⟩ : Store)
      "Django" "x.tar.gz" := by
  rintro ⟨fuel, hne⟩
  exact hne (get_file_nested_diverges fuel)

theorem lookup_file_of_flat :
    ∀ {es : List (String × FSTree)} {n : String},
      (∀ e ∈ es, isDirT e.2 = false) → n ∈ es.map Prod.fst →
      ∃ c, lookupEntry n es = some (FSTree.file c)
  | [], _, _, hmem => absurd hmem (by simp)
  | (m, t) :: es, n, hflat, hmem => by
    rw [lookupEntry]
    by_cases hm : m = n
    · rw [if_pos hm]
      have h1 := hflat (m, t) (List.mem_cons_self _ _)
      rcases t with c | esd
      · exact ⟨c, rfl⟩
      · exact absurd h1 (by simp [isDirT])
    · rw [if_neg hm]
      apply lookup_file_of_flat fun e2 hm2 => hflat e2 (List.mem_cons_of_mem _ hm2)
      rw [List.map_cons] at hmem
      rcases List.mem_cons.mp hmem with h | h
      · exact absurd h.symm hm
      · exact h

/-- **C6 (amended).**  `get_file` is total on every finite store that
satisfies the sharding invariant and whose package directories are flat
(all files direct children — exactly the stores `add_file` can build):
for every non-empty package and every filename, recursion depth 3
already suffices to return either a handle on stored bytes or a
`NotFound` error. -/
theorem c6_get_file_total_flat {rootdir : String} {s : Store} {p f : String}
    (hwf : WFStore s) (hflat : FlatStore s) {ch : Char} {tl : List Char}
    (hp : p.data = ch :: tl) :
    (∃ b, get_file rootdir 3 s p f = some (.ok b)) ∨
    (∃ m, get_file rootdir 3 s p f = some (.error (.notFound m))) := by
  have hfl : firstletter p = some (String.mk [ch]) := by
    unfold firstletter
    rw [hp]
  rw [show (3 : Nat) = 2 + 1 from rfl, get_file]
  simp only [hfl]
  rcases hx : readAt s [String.mk [ch], p, f] with _ | c
  · simp only [hx]
    have hall : ∀ mp ∈ list_packages s, ∃ recs, list_files 2 s mp = some (.ok recs) :=
      fun mp hm => ⟨listedRecords s mp, list_files_listed hwf hm 1⟩
    obtain ⟨out, hout⟩ :=
      @findMatch_ok_of_all (list_files 2 s) p f (list_packages s) hall
    rcases out with _ | ⟨mp, fn⟩
    · right
      refine ⟨notFoundMsg p f (packagePath rootdir (String.mk [ch]) p f), ?_⟩
      simp only [hout]
    · obtain ⟨hm, recs, r, hlf, hr, hfn⟩ := findMatch_ok_some_elim hout
      have hrecs : recs = listedRecords s mp := by
        have h2 := list_files_listed hwf hm 1
        rw [hlf] at h2
        simpa using h2
      obtain ⟨L2, es2, hfl2, hdir2⟩ := mem_list_packages_dirAt hwf hm
      have hlr : listedRecords s mp = packageRecords mp L2 (.dir es2) := by
        simp only [listedRecords, hfl2, hdir2]
      obtain ⟨esa, hql1, hql2⟩ := dirAt_pair_inv hdir2
      have hflat2 : ∀ e ∈ es2, isDirT e.2 = false := by
        have htop : FlatTop (FSTree.dir esa) := hflat _ (lookupEntry_mem hql1)
        have hnode : FlatNode (FSTree.dir es2) :=
          (htop : ∀ e ∈ esa, FlatNode e.2) _ (lookupEntry_mem hql2)
        exact hnode
      have hrmem : r ∈ packageRecords mp L2 (.dir es2) := by
        rw [← hlr, ← hrecs]
        exact hr
      obtain ⟨nc, hnc, hre⟩ := mem_packageRecords_elim hrmem
      rw [walk_flat hflat2] at hnc
      have hname : nc.1 ∈ es2.map Prod.fst := by
        have hfile : (nc.1, FSTree.file nc.2) ∈ es2 := filesOfEntries_mem.mp hnc
        exact List.mem_map.mpr ⟨(nc.1, FSTree.file nc.2), hfile, rfl⟩
      obtain ⟨c2, hlook⟩ := lookup_file_of_flat hflat2 hname
      have hread2 : readAt s [L2, mp, nc.1] = some c2 :=
        readAt_of_lookups hql1 hql2 hlook
      left
      refine ⟨c2, ?_⟩
      simp only [hout]
      have hfnnc : fn = nc.1 := by
        rw [← hfn, hre]
      show get_file rootdir 2 s mp fn = some (.ok c2)
      rw [hfnnc]
      exact get_file_exact 1 hfl2 hread2
  · simp only [hx]
    exact Or.inl ⟨c, rfl⟩

/-- Witness for amended C6 at a concrete input: on a flat store the
lookup of an absent file terminates (here with `NotFound`). -/
theorem c6_get_file_total_flat_witness :
    (∃ b, get_file "/r" 3
        (⟨[("D", .dir [("Django", .dir [("d.tar.gz", .file [5])])])]⟩ : Store)
        "Django" "nope.tar.gz" = some (.ok b)) ∨
    (∃ m, get_file "/r" 3
        (⟨[("D", .dir [("Django", .dir [("d.tar.gz", .file [5])])])]⟩ : Store)
        "Django" "nope.tar.gz" = some (.error (.notFound m))) :=
  @c6_get_file_total_flat "/r"
    ⟨[("D", .dir [("Django", .dir [("d.tar.gz", .file [5])])])]⟩
    "Django" "nope.tar.gz" (by decide) (by decide) 'D' "jango".data rfl

/-! ### `list_packages`: order and absence of duplicates -/

theorem firstletter_inv {p fl : String} (h : firstletter p = some fl) :
    ∃ ch tl, p.data = ch :: tl ∧ fl = String.mk [ch] := by
  unfold firstletter at h
  split at h
  · cases h
  · next ch tl hp => exact ⟨ch, tl, hp, (Option.some.inj h).symm⟩

theorem shardGlob_elim {e : String × FSTree} {x : String × Bool × String}
    (hx : x ∈ shardGlob e) :
    ∃ es, e.2 = FSTree.dir es ∧ e.1.length = 1 ∧ startsWithDot e.1 = false ∧
      ∃ e2 ∈ es, startsWithDot e2.1 = false ∧
        x = (e.1 ++ "/" ++ e2.1, isDirT e2.2, e2.1) := by
  unfold shardGlob at hx
  split at hx
  · next hc =>
    split at hx
    · next es het =>
      rw [List.mem_filterMap] at hx
      obtain ⟨e2, he2, hx⟩ := hx
      split at hx
      · next hdot =>
        cases hx
        exact ⟨es, het, hc.1, hc.2, e2, he2, hdot, rfl⟩
      · cases hx
    · cases hx
  · cases hx

theorem filterMap_names_sublist :
    ∀ (es : List (String × FSTree)) (L : String),
      ((es.filterMap fun e2 =>
          if startsWithDot e2.1 = false then
            some (L ++ "/" ++ e2.1, isDirT e2.2, e2.1)
          else none).map fun x => x.2.2).Sublist (es.map Prod.fst)
  | [], _ => List.Sublist.slnil
  | e2 :: es, L => by
    rw [List.filterMap_cons]
    split
    · rw [List.map_cons]
      exact List.Sublist.cons _ (filterMap_names_sublist es L)
    · next b hb =>
      rw [List.map_cons, List.map_cons]
      have hb2 : b.2.2 = e2.1 := by
        split at hb
        · cases hb
          rfl
        · cases hb
      rw [hb2]
      exact List.Sublist.cons₂ _ (filterMap_names_sublist es L)

theorem shardGlob_names_nodup {s : Store} {e : String × FSTree} (hwf : WFStore s)
    (he : e ∈ s.shards) : ((shardGlob e).map fun x => x.2.2).Nodup := by
  unfold shardGlob
  split
  · split
    · next es het =>
      have hnd : (es.map Prod.fst).Nodup := by
        have hnode := (hwf.2 e he).2.2
        rw [het] at hnode
        exact (hnode : WFEntries e.1 es).1
      exact List.Nodup.sublist (filterMap_names_sublist es e.1) hnd
    · simp
  · simp

theorem shardGlob_name_first {s : Store} {e : String × FSTree} {n : String}
    (hwf : WFStore s) (he : e ∈ s.shards)
    (hn : n ∈ (shardGlob e).map fun x => x.2.2) : firstletter n = some e.1 := by
  rw [List.mem_map] at hn
  obtain ⟨x, hx, hxn⟩ := hn
  obtain ⟨es, het, _, _, e2, he2, _, hxe⟩ := shardGlob_elim hx
  subst hxe
  have hnode := (hwf.2 e he).2.2
  rw [het] at hnode
  have hf := ((hnode : WFEntries e.1 es).2 e2 he2).1
  dsimp only at hxn
  rw [← hxn]
  exact hf

theorem globNames_nodup {s : Store} (hwf : WFStore s) :
    ((globEntries s).map fun x => x.2.2).Nodup := by
  unfold globEntries
  rw [List.map_flatMap, List.nodup_flatMap]
  refine ⟨fun e he => shardGlob_names_nodup hwf he, ?_⟩
  apply List.Pairwise.imp_of_mem ?_ ((List.pairwise_map).mp hwf.1)
  intro e1 e2 h1 h2 hne
  intro n hn1 hn2
  have q1 := shardGlob_name_first hwf h1 hn1
  have q2 := shardGlob_name_first hwf h2 hn2
  exact hne (Option.some.inj (q1.symm.trans q2))

theorem globEntries_path {s : Store} {x : String × Bool × String} (hwf : WFStore s)
    (hx : x ∈ globEntries s) :
    ∃ ch tl, x.2.2.data = ch :: tl ∧ x.1.data = ch :: '/' :: ch :: tl := by
  obtain ⟨e, he, es, het, hlen, hdot, e2, he2, hdot2, hxe⟩ := globEntries_elim hx
  have hnode := (hwf.2 e he).2.2
  rw [het] at hnode
  obtain ⟨hfl, _⟩ := (hnode : WFEntries e.1 es).2 e2 he2
  obtain ⟨ch, tl, hdata, hL⟩ := firstletter_inv hfl
  subst hxe
  refine ⟨ch, tl, hdata, ?_⟩
  show (e.1 ++ "/" ++ e2.1).data = ch :: '/' :: ch :: tl
  rw [string_data_append, string_data_append, hL, hdata]
  rfl

theorem pyStrLt_path_name {a b : List Char} {x y : Char}
    (h : pyStrLt (x :: '/' :: x :: a) (y :: '/' :: y :: b) = true) :
    pyStrLt (x :: a) (y :: b) = true := by
  rcases lt_trichotomy x y with hxy | hxy | hxy
  · rw [pyStrLt, if_pos hxy]
  · subst hxy
    rw [pyStrLt, if_neg (lt_irrefl x), if_neg (lt_irrefl x)] at h
    rw [pyStrLt, if_neg (lt_irrefl '/'), if_neg (lt_irrefl '/')] at h
    exact h
  · rw [pyStrLt, if_neg (asymm hxy), if_pos hxy] at h
    cases h

/-- **C8.**  On every store satisfying the documented sharding
invariant, `list_packages()` yields exactly the names of the
directories found one level under the single-letter shard directories —
non-directory entries at that level are excluded — strictly increasing
in the code-point lexicographic order used by `sorted` (hence
lexicographically ordered with no duplicates). -/
theorem c8_list_packages_order {s : Store} (hwf : WFStore s) :
    (list_packages s).Pairwise (fun a b => pyStrLt a.data b.data = true) ∧
    ∀ n, n ∈ list_packages s ↔
      ∃ e ∈ s.shards, ∃ es, e.2 = FSTree.dir es ∧ ∃ u, (n, u) ∈ es ∧ isDirT u = true := by
  constructor
  · have hsorted : List.Sorted globLe (List.insertionSort globLe (globEntries s)) :=
      List.sorted_insertionSort globLe _
    have hpw : ((List.insertionSort globLe (globEntries s)).filter
        fun x => x.2.1).Pairwise globLe :=
      List.Pairwise.sublist (List.filter_sublist _) hsorted
    have hnodup : (list_packages s).Nodup := by
      have h1 := globNames_nodup hwf
      have h2 : ((List.insertionSort globLe (globEntries s)).map fun x => x.2.2).Nodup :=
        (((List.perm_insertionSort globLe (globEntries s)).map _).nodup_iff).mpr h1
      exact List.Nodup.sublist (List.Sublist.map _ (List.filter_sublist _)) h2
    have hneq : ((List.insertionSort globLe (globEntries s)).filter
        fun x => x.2.1).Pairwise (fun a b => a.2.2 ≠ b.2.2) := by
      unfold list_packages at hnodup
      exact (List.pairwise_map).mp hnodup
    unfold list_packages
    rw [List.pairwise_map]
    apply List.Pairwise.imp_of_mem ?_ (hpw.and hneq)
    intro a b ha hb hab
    have ha' : a ∈ globEntries s :=
      (List.perm_insertionSort globLe _).mem_iff.mp (List.mem_of_mem_filter ha)
    have hb' : b ∈ globEntries s :=
      (List.perm_insertionSort globLe _).mem_iff.mp (List.mem_of_mem_filter hb)
    obtain ⟨cha, tla, hada, hpa⟩ := globEntries_path hwf ha'
    obtain ⟨chb, tlb, hadb, hpb⟩ := globEntries_path hwf hb'
    rcases pyStrLt_trichotomy a.1.data b.1.data with h | h | h
    · rw [hada, hadb]
      rw [hpa, hpb] at h
      exact pyStrLt_path_name h
    · rw [hab.1] at h
      cases h
    · exfalso
      apply hab.2
      rw [hpa, hpb] at h
      injection h with h1 h2
      injection h2 with h3 h4
      injection h4 with h5 h6
      apply String.ext
      rw [hada, hadb, h1, h6]
  · intro n
    constructor
    · intro h
      obtain ⟨x, hx, hxdir, hxn⟩ := list_packages_mem_elim h
      obtain ⟨e, he, es, het, hlen, hdot, e2, he2, hdot2, hxe⟩ := globEntries_elim hx
      subst hxe
      dsimp only at hxdir hxn
      refine ⟨e, he, es, het, e2.2, ?_, hxdir⟩
      have hmem : (e2.1, e2.2) ∈ es := he2
      rw [hxn] at hmem
      exact hmem
    · rintro ⟨e, he, es, het, u, hu, hdir⟩
      obtain ⟨hlen, hdot, hnode⟩ := hwf.2 e he
      rw [het] at hnode
      have hdot2 : startsWithDot n = false := ((hnode : WFEntries e.1 es).2 (n, u) hu).2
      exact list_packages_intro he het hlen hdot hu hdot2 hdir

/-- Witness for C8 at a concrete input: two shards, one non-directory
entry (`a.txt`) excluded, names strictly sorted across shards. -/
theorem c8_list_packages_order_witness :
    (list_packages (⟨[("b", .dir [("beta", .dir [])]),
        ("a", .dir [("alpha", .dir []), ("a.txt", .file [1])])]⟩ : Store)).Pairwise
      (fun a b => pyStrLt a.data b.data = true) ∧
    list_packages (⟨[("b", .dir [("beta", .dir [])]),
        ("a", .dir [("alpha", .dir []), ("a.txt", .file [1])])]⟩ : Store) =
      ["alpha", "beta"] :=
  ⟨(c8_list_packages_order (by decide)).1, rfl⟩
